import Mathlib

/-!
Verification of the scheduling/ordering engine of photo-to-post.

The definitions below are a shallow embedding of `scripts/scheduler.py`
(`_apply_diversity_rule`, `_apply_grid_mode`, `schedule_posts`,
`preview_schedule`, `_get_scheduled_dates`), of the due/late gate of
`run.py` (`cmd_auto_publish`), and of the stage-move step shared by
`schedule_posts` and `scripts/publisher.py::publish_post`.

Modelling conventions:
* a post is reduced to the fields the engine reads: its `id` and its
  `country` (the group key); calendar dates are day ordinals (`Nat`);
  times of day stay strings, exactly as the code handles them;
* Python `while` loops become fuel-indexed recursion; the fuel chosen in
  each wrapper is the loop's actual termination measure, and a fuel-out
  result of `none` marks an input on which the Python loop never
  terminates;
* Python `date + timedelta(days=x)` adds only `timedelta.days`, i.e. the
  whole-day part of `x` (`datetime` documentation: "timedelta.seconds and
  timedelta.microseconds are ignored"), so advancing a `datetime.date`
  cursor by `timedelta(days=7/posts_per_week)` adds
  `⌊7/posts_per_week⌋` days; with integer `posts_per_week` this is Nat
  division `7 / posts_per_week`.
-/

/-- A pending post as the scheduler sees it: `id` plus its `country`
(the diversity/grid group key). -/
structure Post where
  id : Nat
  country : String
deriving DecidableEq

/-- A post already sitting in the scheduled (or published) store, reduced
to the schedule fields the engine reads back: `schedule.suggested_date`
(nullable) and `schedule.suggested_time`. -/
structure StoredPost where
  suggested_date : Option Nat
  suggested_time : String
  country : String
deriving DecidableEq

/-- The settings read by `schedule_posts` / `preview_schedule`
(defaults in the source: 3, ["07:00","12:00","19:00"], 3, false). -/
structure Settings where
  posts_per_week : Nat
  preferred_times : List String
  max_consecutive_same_country : Int
  grid_mode : Bool
deriving DecidableEq

/-! ### Diversity Scheduler (`_apply_diversity_rule`) -/

/-- The countries of the last `m` already-placed posts:
Python `[p.get("country") for p in result[-max_consecutive:]]`
(for the `m ≥ 1` values the loop runs with). -/
def lastCountries (result : List Post) (m : Nat) : List String :=
  (result.drop (result.length - m)).map Post.country

/-- The placement test of `_apply_diversity_rule`:
`len(recent) < max_consecutive or not all(c == post.get("country") for c in recent)`. -/
def okToPlace (result : List Post) (m : Nat) (p : Post) : Bool :=
  decide ((lastCountries result m).length < m)
    || !((lastCountries result m).all (fun c => c == p.country))

/-- One scan of the inner `for i, post in enumerate(remaining)` loop:
the first placeable post together with the remaining list with it popped. -/
def findPlaceable (result : List Post) (m : Nat) : List Post → Option (Post × List Post)
  | [] => none
  | q :: rest =>
    if okToPlace result m q then some (q, rest)
    else
      match findPlaceable result m rest with
      | some (p, rest2) => some (p, q :: rest2)
      | none => none

/-- The `while remaining:` loop of `_apply_diversity_rule`. Each pass either
pops one post from `remaining` or appends all of `remaining` and stops, so
`remaining.length` steps of fuel are exactly enough. -/
def diversityLoop (m : Nat) : Nat → List Post → List Post → List Post
  | 0, result, remaining => result ++ remaining
  | fuel + 1, result, remaining =>
    if remaining = [] then result
    else
      match findPlaceable result m remaining with
      | some (p, rest) => diversityLoop m fuel (result ++ [p]) rest
      | none => result ++ remaining

/-- `_apply_diversity_rule(posts, max_consecutive)`:
`if not posts or max_consecutive <= 0: return posts`, then the greedy loop. -/
def apply_diversity_rule (posts : List Post) (max_consecutive : Int) : List Post :=
  if posts = [] ∨ max_consecutive ≤ 0 then posts
  else diversityLoop max_consecutive.toNat posts.length [] posts

/-- Maximal runs of equal values, in order, with their lengths. -/
def runs : List String → List (String × Nat)
  | [] => []
  | c :: cs =>
    match runs cs with
    | [] => [(c, 1)]
    | (d, n) :: t => if c = d then (c, n + 1) :: t else (c, 1) :: (d, n) :: t

/-! ### Grid Scheduler (`_apply_grid_mode`) -/

/-- One step of building `by_country`: append `p` to its country's list
(Python `defaultdict` keeps keys in first-insertion order and appends at
the end of each list). -/
def addToGroups (groups : List (String × List Post)) (p : Post) : List (String × List Post) :=
  match groups with
  | [] => [(p.country, [p])]
  | (c, ps) :: rest =>
    if c = p.country then (c, ps ++ [p]) :: rest else (c, ps) :: addToGroups rest p

/-- `by_country`: group posts by country, keys in first-seen order. -/
def byCountry (posts : List Post) : List (String × List Post) :=
  posts.foldl addToGroups []

/-- Dictionary lookup `by_country[c]` (`[]` when absent, matching the
`c in by_country and by_country[c]` guard which treats both alike). -/
def lookupGroup (groups : List (String × List Post)) (c : String) : List Post :=
  match groups with
  | [] => []
  | (d, ps) :: rest => if d = c then ps else lookupGroup rest c

/-- In-place `pop(0)` of the first `n` posts of country `c`'s list. -/
def dropGroup (groups : List (String × List Post)) (c : String) (n : Nat) :
    List (String × List Post) :=
  groups.map (fun g => if g.1 = c then (g.1, g.2.drop n) else g)

/-- The row-completion step of `_apply_grid_mode`: when the grid state
reports a truthy `last_country` (in Python `None` and `""` are both
falsy) and `remainder > 0`, pull up to `group_size - remainder` posts of
that country to the front. Returns the pulled posts and the updated
groups. -/
def rowCompletion (groups : List (String × List Post)) (last_country : Option String)
    (remainder group_size : Nat) : List Post × List (String × List Post) :=
  match last_country with
  | none => ([], groups)
  | some lc =>
    if lc ≠ "" ∧ 0 < remainder then
      if lookupGroup groups lc = [] then ([], groups)
      else ((lookupGroup groups lc).take (group_size - remainder),
            dropGroup groups lc (group_size - remainder))
    else ([], groups)

/-- The sort key of `sorted(by_country.keys(), key=lambda c: len(by_country[c]), reverse=True)`:
descending by list length. -/
def gridOrder (a b : String × List Post) : Prop :=
  b.2.length ≤ a.2.length

instance : DecidableRel gridOrder := fun _ _ => Nat.decLe _ _

instance : IsTotal (String × List Post) gridOrder :=
  ⟨fun a b => Nat.le_total b.2.length a.2.length⟩

instance : IsTrans (String × List Post) gridOrder :=
  ⟨fun _ _ _ h1 h2 => Nat.le_trans h2 h1⟩

/-- Python's `sorted(..., reverse=True)` is stable; `List.insertionSort`
with `gridOrder` is the same stable descending-by-count order. -/
def sortGroups (groups : List (String × List Post)) : List (String × List Post) :=
  List.insertionSort gridOrder groups

/-- Total number of posts still held in the groups. -/
def totalLen (groups : List (String × List Post)) : Nat :=
  (groups.map (fun g => g.2.length)).sum

/-- The `while any(by_country.values()):` round-robin of `_apply_grid_mode`:
each round takes up to `group_size` posts from the front of every group, in
the fixed sorted order. `none` on fuel exhaustion marks divergence of the
Python loop (with `group_size = 0` and a nonempty group no round removes
anything, so the loop spins forever). -/
def bulkFill (group_size : Nat) : Nat → List (String × List Post) → Option (List Post)
  | 0, groups => if groups.all (fun g => g.2.isEmpty) then some [] else none
  | fuel + 1, groups =>
    if groups.all (fun g => g.2.isEmpty) then some []
    else
      match bulkFill group_size fuel (groups.map (fun g => (g.1, g.2.drop group_size))) with
      | some rest => some ((groups.map (fun g => g.2.take group_size)).flatten ++ rest)
      | none => none

/-- `_apply_grid_mode(posts, group_size)`, with the grid state
`(last_country, remainder)` of `_get_grid_state()` passed explicitly.
The fuel `totalLen _ + 1` is exact: every productive round removes at
least one post, so `none` is returned precisely when the source loop
diverges. -/
def apply_grid_mode (posts : List Post) (last_country : Option String) (remainder : Nat)
    (group_size : Nat) : Option (List Post) :=
  if posts = [] then some posts
  else
    let groups := byCountry posts
    let pr := rowCompletion groups last_country remainder group_size
    let sorted := sortGroups pr.2
    match bulkFill group_size (totalLen sorted + 1) sorted with
    | some b => some (pr.1 ++ b)
    | none => none

/-! ### Date Assigner (`schedule_posts` / `preview_schedule`) -/

/-- `_get_scheduled_dates()` restricted to what the occupancy check uses:
the dates (with multiplicity) of stored posts whose `suggested_date` is
set. -/
def occupiedDates (store : List StoredPost) : List Nat :=
  store.filterMap (fun q => q.suggested_date)

/-- The `(suggested_date, suggested_time)` pairs already committed in the
scheduled store. -/
def storedPairs (store : List StoredPost) : List (Nat × String) :=
  store.filterMap (fun q => q.suggested_date.map (fun d => (d, q.suggested_time)))

/-- The `while True:` date search: advance day by day while
`len(scheduled_dates.get(date_str, [])) >= 1`. -/
def nextFreeAux (occ : List Nat) : Nat → Nat → Nat
  | 0, d => d
  | fuel + 1, d => if 1 ≤ occ.count d then nextFreeAux occ fuel (d + 1) else d

/-- The first free date at or after `tomorrow`. Fuel `occ.length + 1` is
enough: among any `occ.length + 1` consecutive dates one holds no
scheduled post. -/
def nextFreeDate (occ : List Nat) (tomorrow : Nat) : Nat :=
  nextFreeAux occ (occ.length + 1) tomorrow

/-- `preferred_times[time_idx % len(preferred_times)]` (the source raises
on an empty list; `""` stands in for that unreachable case). -/
def timeAt (ts : List String) (i : Nat) : String :=
  (ts[i % ts.length]?).getD ""

/-- One committed assignment of `schedule_posts`: the values written into
`schedule.suggested_date` / `schedule.suggested_time` for one post id. -/
structure Assignment where
  id : Nat
  date : Nat
  time : String
deriving DecidableEq

/-- The dead rounding step of `schedule_posts`:
`current_date.replace(hour=0, ...) if hasattr(current_date, 'hour') else current_date`.
`current_date` is a `datetime.date`, which has no `hour` attribute, so the
conditional always takes its `else` branch and the cursor is unchanged. -/
def roundToWholeDay (d : Nat) : Nat := d

/-- The assignment loop of `schedule_posts`: for each post in order, emit
`(current_date, preferred_times[time_idx % len])`, then advance the cursor
by `timedelta(days=7/posts_per_week)` - which on a `datetime.date` adds
`7 / posts_per_week` whole days (Nat division) - and apply the dead
rounding step. -/
def scheduleLoop (s : Settings) : List Post → Nat → Nat → List Assignment
  | [], _, _ => []
  | p :: rest, d, ti =>
    { id := p.id, date := d, time := timeAt s.preferred_times ti } ::
      (let d2 := d + 7 / s.posts_per_week
       let d3 := if 7 % s.posts_per_week ≠ 0 ∧ (ti + 1) % s.posts_per_week = 0 then
           roundToWholeDay d2
         else d2
       scheduleLoop s rest d3 (ti + 1))

/-- `schedule_posts()`: load approved posts, order them by the selected
mode (grid mode always calls `_apply_grid_mode(approved, group_size=3)`,
which terminates, hence the `getD`), find the first unoccupied date
starting tomorrow, then assign slots in order. Storage reads
(`approved`, `store`, the grid state and `tomorrow = now + 1 day`) are
explicit parameters; the per-post file moves do not feed back into the
assignment loop because `_get_scheduled_dates()` is read once up front. -/
def schedule_posts (s : Settings) (approved : List Post) (store : List StoredPost)
    (grid_state : Option String × Nat) (tomorrow : Nat) : List Assignment :=
  if approved = [] then []
  else
    let ordered :=
      if s.grid_mode then (apply_grid_mode approved grid_state.1 grid_state.2 3).getD []
      else apply_diversity_rule approved s.max_consecutive_same_country
    let first := nextFreeDate (occupiedDates store) tomorrow
    scheduleLoop s ordered first 0

/-- One row of the list returned by `preview_schedule` (the fields not
modelled - `location`, `photos` - are copied verbatim from the post and
play no role in scheduling). -/
structure PreviewEntry where
  id : Nat
  country : String
  scheduled_date : Nat
  scheduled_time : String
deriving DecidableEq

/-- The preview loop of `preview_schedule`: identical cursor arithmetic to
`schedule_posts`, without the (dead) rounding lines and without writes. -/
def previewLoop (s : Settings) : List Post → Nat → Nat → List PreviewEntry
  | [], _, _ => []
  | p :: rest, d, ti =>
    { id := p.id, country := p.country, scheduled_date := d,
      scheduled_time := timeAt s.preferred_times ti } ::
      previewLoop s rest (d + 7 / s.posts_per_week) (ti + 1)

/-- `preview_schedule()`: the dry run, over the same explicit storage
parameters as `schedule_posts`. -/
def preview_schedule (s : Settings) (approved : List Post) (store : List StoredPost)
    (grid_state : Option String × Nat) (tomorrow : Nat) : List PreviewEntry :=
  if approved = [] then []
  else
    let ordered :=
      if s.grid_mode then (apply_grid_mode approved grid_state.1 grid_state.2 3).getD []
      else apply_diversity_rule approved s.max_consecutive_same_country
    let first := nextFreeDate (occupiedDates store) tomorrow
    previewLoop s ordered first 0

/-! ### Auto-Publish Gate (`run.py::cmd_auto_publish`) -/

/-- The three outcomes of the gate for an item whose schedule resolved and
parsed: not yet due (skipped silently), too late (warned, not published),
or publishable (the Publisher is invoked for its id). -/
inductive GateDecision where
  | notYetDue : GateDecision
  | tooLate : GateDecision
  | publish : GateDecision
deriving DecidableEq

/-- The due/late classification of `cmd_auto_publish` for an item whose
effective due datetime resolved to `due`, at current time `now` (both in
seconds): `if sched_dt <= now:` then
`hours_late = (now - sched_dt).total_seconds() / 3600` and
`if hours_late > max_delay_hours:` too late, else publish; otherwise the
item is not yet due. -/
def gateClassify (due now : Int) (max_delay_hours : Int) : GateDecision :=
  if due ≤ now then
    if ((now - due : Int) : ℚ) / 3600 > (max_delay_hours : ℚ) then GateDecision.tooLate
    else GateDecision.publish
  else GateDecision.notYetDue

/-! ### Stage moves (`shutil.move` in `schedule_posts` and `publish_post`) -/

/-- Outcome of a stage move: the directory path actually produced, or a
raised `shutil.Error`. -/
inductive MoveResult where
  | movedTo : List String → MoveResult
  | raised : MoveResult
deriving DecidableEq

/-- Models Python `shutil.move(src, dst)` per its documentation: if `dst`
is an existing directory, `src` is moved *inside* it, to
`dst/basename(src)`, and an error is raised only if that inner path also
exists; otherwise `src` is renamed to `dst`. Paths are segment lists;
`existingDirs` are the directories present before the move. -/
def shutilMove (existingDirs : List (List String)) (src dst : List String) : MoveResult :=
  if dst ∈ existingDirs then
    if dst ++ [src.getLastD ""] ∈ existingDirs then MoveResult.raised
    else MoveResult.movedTo (dst ++ [src.getLastD ""])
  else MoveResult.movedTo dst

/-- The move target of `schedule_posts`: `SCHEDULED_DIR / post_dir.name`. -/
def scheduledDest (name : String) : List String := ["05_scheduled", name]

/-- The move target of `publish_post`:
`PUBLISHED_DIR / str(now.year) / f"{now.month:02d}" / post_dir.name`
(only `archive_dir.parent` is pre-created). -/
def publishedDest (year month name : String) : List String :=
  ["06_published", year, month, name]

/-! ### Permutation lemmas for the Diversity Scheduler -/

theorem findPlaceable_perm {res : List Post} {m : Nat} :
    ∀ {l p rest}, findPlaceable res m l = some (p, rest) → (p :: rest).Perm l := by
  intro l
  induction l with
  | nil => intro p rest h; simp [findPlaceable] at h
  | cons q t ih =>
    intro p rest h
    rw [findPlaceable] at h
    by_cases hq : okToPlace res m q
    · rw [if_pos hq] at h
      cases h
      exact List.Perm.refl _
    · rw [if_neg hq] at h
      cases hfp : findPlaceable res m t with
      | none => rw [hfp] at h; cases h
      | some pr =>
        obtain ⟨p', rest'⟩ := pr
        rw [hfp] at h
        cases h
        exact (List.Perm.swap q _ _).trans ((ih hfp).cons q)

theorem diversityLoop_perm (m : Nat) :
    ∀ fuel result remaining,
      (diversityLoop m fuel result remaining).Perm (result ++ remaining) := by
  intro fuel
  induction fuel with
  | zero => intro r rem; exact List.Perm.refl _
  | succ n ih =>
    intro r rem
    rw [diversityLoop]
    by_cases hrem : rem = []
    · subst hrem; simp
    · rw [if_neg hrem]
      cases hfp : findPlaceable r m rem with
      | none => exact List.Perm.refl _
      | some pr =>
        obtain ⟨p, rest⟩ := pr
        have h1 : (diversityLoop m n (r ++ [p]) rest).Perm ((r ++ [p]) ++ rest) := ih _ _
        have h2 : (r ++ [p]) ++ rest = r ++ (p :: rest) := by simp
        rw [h2] at h1
        exact h1.trans (List.Perm.append_left r (findPlaceable_perm hfp))

theorem apply_diversity_rule_perm (posts : List Post) (m : Int) :
    (apply_diversity_rule posts m).Perm posts := by
  rw [apply_diversity_rule]
  split_ifs with h
  · exact List.Perm.refl _
  · simpa using diversityLoop_perm m.toNat posts.length [] posts

/-! ### Claim C9: end-to-end diversity scenario A -/

/-- C9: on the batch [("FR",p1),("FR",p2),("FR",p3),("IT",p4)] with
`max_consecutive = 2` the Diversity Scheduler deterministically returns
[p1, p2, p4, p3]; that output has no run of more than 2 consecutive FR
posts; and in general the placement test rejects a post exactly when the
last `max_consecutive` placed posts all already carry its group (so
placing it would make `max_consecutive + 1` identical groups in a row). -/
theorem diversity_scenario_A :
    apply_diversity_rule [⟨1, "FR"⟩, ⟨2, "FR"⟩, ⟨3, "FR"⟩, ⟨4, "IT"⟩] 2
      = [⟨1, "FR"⟩, ⟨2, "FR"⟩, ⟨4, "IT"⟩, ⟨3, "FR"⟩] ∧
    (∀ r ∈ runs ((apply_diversity_rule
        [⟨1, "FR"⟩, ⟨2, "FR"⟩, ⟨3, "FR"⟩, ⟨4, "IT"⟩] 2).map Post.country), r.2 ≤ 2) ∧
    (∀ (result : List Post) (m : Nat) (p : Post),
      okToPlace result m p = false ↔
        m ≤ result.length ∧ ∀ c ∈ lastCountries result m, c = p.country) := by
  refine ⟨by decide, by decide, ?_⟩
  intro result m p
  rw [okToPlace]
  simp only [Bool.or_eq_false_iff, decide_eq_false_iff_not, not_lt, Bool.not_eq_false',
    List.all_eq_true, beq_iff_eq]
  have hlen : (lastCountries result m).length = result.length - (result.length - m) := by
    simp [lastCountries]
  constructor
  · rintro ⟨h1, h2⟩
    exact ⟨by omega, h2⟩
  · rintro ⟨h1, h2⟩
    exact ⟨by omega, h2⟩

/-! ### Claim C7: the Auto-Publish Gate classification -/

/-- C7: an item due at `T` is classified publishable at `now = T + 2h`
with `max_delay_hours = 24`, too-late at `now = T + 30h`; in general it is
publishable iff it is due (`due ≤ now`) and `hours_late` is not strictly
greater than `max_delay_hours`, and it is skipped as not yet due iff
`now < due`. -/
theorem auto_publish_gate (T now maxDelay : Int) :
    gateClassify T (T + 2 * 3600) 24 = GateDecision.publish ∧
    gateClassify T (T + 30 * 3600) 24 = GateDecision.tooLate ∧
    (gateClassify T now maxDelay = GateDecision.publish ↔
      T ≤ now ∧ ((now - T : Int) : ℚ) / 3600 ≤ (maxDelay : ℚ)) ∧
    (gateClassify T now maxDelay = GateDecision.notYetDue ↔ now < T) := by
  refine ⟨?_, ?_, ?_, ?_⟩
  · have h : (T + 2 * 3600 - T : Int) = 7200 := by ring
    rw [gateClassify, if_pos (by omega : T ≤ T + 2 * 3600), h]
    rw [if_neg (by norm_num)]
  · have h : (T + 30 * 3600 - T : Int) = 108000 := by ring
    rw [gateClassify, if_pos (by omega : T ≤ T + 30 * 3600), h]
    rw [if_pos (by norm_num)]
  · rw [gateClassify]
    split_ifs with hd hl
    · constructor
      · intro h; exact h.elim
      · rintro ⟨h1, h2⟩; exact absurd hl (not_lt.mpr h2)
    · exact iff_of_true rfl ⟨hd, not_lt.mp hl⟩
    · constructor
      · intro h; exact h.elim
      · rintro ⟨h1, h2⟩; exact absurd h1 hd
  · rw [gateClassify]
    split_ifs with hd hl
    · constructor
      · intro h; exact h.elim
      · intro h; exact absurd hd (not_le.mpr h)
    · constructor
      · intro h; exact h.elim
      · intro h; exact absurd hd (not_le.mpr h)
    · exact iff_of_true rfl (not_le.mp hd)

/-! ### Claim C8: destination collision does not raise -/

/-- C8 failing input: the scheduled store already holds a directory named
`post_A` and an approved post with the same name is scheduled. The spec
says a destination collision raises; `shutil.move` instead silently moves
the source *inside* the existing destination directory, producing the
nested path `05_scheduled/post_A/post_A` (after which the source rewrites
`05_scheduled/post_A/post.json`, clobbering the colliding item).
The `publish_post` move to `06_published/{year}/{month}/{name}` behaves
the same way. -/
theorem destination_collision_cex :
    shutilMove [scheduledDest "post_A"] ["04_approved", "post_A"] (scheduledDest "post_A")
        = MoveResult.movedTo ["05_scheduled", "post_A", "post_A"] ∧
    MoveResult.movedTo ["05_scheduled", "post_A", "post_A"] ≠ MoveResult.raised ∧
    ["05_scheduled", "post_A", "post_A"] ≠ scheduledDest "post_A" ∧
    shutilMove [publishedDest "2026" "02" "post_B"] ["05_scheduled", "post_B"]
        (publishedDest "2026" "02" "post_B")
        = MoveResult.movedTo ["06_published", "2026", "02", "post_B", "post_B"] := by
  refine ⟨by decide, by decide, by decide, by decide⟩

/-! ### Counterexamples to C1 - C5 as originally stated -/

/-- C1 counterexample: with `group_size = 0` and a nonempty batch the
round-robin of `_apply_grid_mode` never removes a post, so the Python
`while any(by_country.values())` loop never terminates; the embedding
signals this by returning `none`, so the function is not a total
permutation for *every* `group_size`. -/
theorem grid_mode_divergence_cex :
    apply_grid_mode [⟨1, "FR"⟩] none 0 0 = none := by decide

/-- C2 counterexample: with `posts_per_week = 3` the second post is
scheduled exactly 2 whole days after the first (Python `date + timedelta`
discards the fractional 1/3 day), not `7/3` days after it as the claimed
fractional accumulation would give. -/
theorem fractional_cadence_cex :
    schedule_posts ⟨3, ["07:00", "12:00", "19:00"], 3, false⟩
        [⟨1, "FR"⟩, ⟨2, "IT"⟩] [] (none, 0) 0
      = [⟨1, 0, "07:00"⟩, ⟨2, 2, "12:00"⟩] ∧
    (2 : ℚ) - 0 ≠ (7 : ℚ) / 3 := by
  refine ⟨by decide, by norm_num⟩

/-- C3 counterexample: batch of 7 FR posts and 1 IT post, empty grid
state. After the first round emits FR,FR,FR,IT the remaining rounds emit
only FR, so the output ends in a maximal FR run of length 4 > group_size
that is not the first run. -/
theorem grid_runs_cex :
    apply_grid_mode [⟨1, "FR"⟩, ⟨2, "FR"⟩, ⟨3, "FR"⟩, ⟨4, "FR"⟩, ⟨5, "FR"⟩, ⟨6, "FR"⟩,
        ⟨7, "FR"⟩, ⟨8, "IT"⟩] none 0 3
      = some [⟨1, "FR"⟩, ⟨2, "FR"⟩, ⟨3, "FR"⟩, ⟨8, "IT"⟩, ⟨4, "FR"⟩, ⟨5, "FR"⟩, ⟨6, "FR"⟩,
        ⟨7, "FR"⟩] ∧
    ("FR", 4) ∈ (runs ([⟨1, "FR"⟩, ⟨2, "FR"⟩, ⟨3, "FR"⟩, ⟨8, "IT"⟩, ⟨4, "FR"⟩, ⟨5, "FR"⟩,
        ⟨6, "FR"⟩, ⟨7, "FR"⟩].map Post.country)).tail ∧
    ¬(4 ≤ 3) := by
  refine ⟨by decide, by decide, by decide⟩

/-- C4 counterexample: history state ("FR", 2), `group_size = 3`, batch
[FR, FR, IT]. Row completion pulls 1 FR post, but the bulk fill then puts
the remaining FR post next (FR has the largest, tie-broken-first group),
so the output starts with a run of 2 FR posts although an IT post is
pending - not "exactly 1 item of group A followed immediately by an item
of a different group". -/
theorem row_completion_cex :
    apply_grid_mode [⟨1, "FR"⟩, ⟨2, "FR"⟩, ⟨3, "IT"⟩] (some "FR") 2 3
        = some [⟨1, "FR"⟩, ⟨2, "FR"⟩, ⟨3, "IT"⟩] ∧
    runs ([⟨1, "FR"⟩, ⟨2, "FR"⟩, ⟨3, "IT"⟩].map Post.country) = [("FR", 2), ("IT", 1)] ∧
    (⟨3, "IT"⟩ : Post) ∈ ([⟨1, "FR"⟩, ⟨2, "FR"⟩, ⟨3, "IT"⟩] : List Post) := by
  refine ⟨by decide, by decide, by decide⟩

/-- C5 counterexample: a stored post already occupies the slot
(date 2, "12:00"); the Date Assigner occupancy-checks only the first
date (day 0, free), then assigns the second batch post to (2, "12:00"),
colliding with the already-scheduled item. -/
theorem slot_collision_cex :
    schedule_posts ⟨3, ["07:00", "12:00"], 3, false⟩ [⟨1, "FR"⟩, ⟨2, "IT"⟩]
        [⟨some 2, "12:00", "ES"⟩] (none, 0) 0
      = [⟨1, 0, "07:00"⟩, ⟨2, 2, "12:00"⟩] ∧
    (2, "12:00") ∈ storedPairs [⟨some 2, "12:00", "ES"⟩] := by
  refine ⟨by decide, by decide⟩

/-! ### Date Assigner lemmas -/

theorem scheduleLoop_length (s : Settings) :
    ∀ (l : List Post) (d ti : Nat), (scheduleLoop s l d ti).length = l.length := by
  intro l
  induction l with
  | nil => intro d ti; rfl
  | cons p rest ih =>
    intro d ti
    rw [scheduleLoop]
    simp only [List.length_cons, ih]

theorem scheduleLoop_dates (s : Settings) :
    ∀ (l : List Post) (d ti : Nat),
      (scheduleLoop s l d ti).map Assignment.date
        = (List.range l.length).map (fun k => d + k * (7 / s.posts_per_week)) := by
  intro l
  induction l with
  | nil => intro d ti; rfl
  | cons p rest ih =>
    intro d ti
    rw [scheduleLoop]
    simp only [roundToWholeDay, ite_self, List.map_cons, List.length_cons]
    rw [ih, List.range_succ_eq_map, List.map_cons, List.map_map]
    congr 1
    · omega
    · apply List.map_congr_left
      intro k _
      simp only [Function.comp_apply, Nat.succ_eq_add_one]
      ring

/-- C2 amended: the `k`-th committed assignment falls on
`first + k * (7 / posts_per_week)` (Nat division): the cursor advances by
the whole-day part of `timedelta(days=7/posts_per_week)` each step, the
fractional part being discarded by `datetime.date` arithmetic; every
cursor date is an integral day, and only the very first date is
occupancy-checked. -/
theorem date_assigner_whole_day_steps (s : Settings) (approved : List Post)
    (store : List StoredPost) (grid_state : Option String × Nat) (tomorrow : Nat) :
    (schedule_posts s approved store grid_state tomorrow).map Assignment.date
      = (List.range (schedule_posts s approved store grid_state tomorrow).length).map
          (fun k =>
            nextFreeDate (occupiedDates store) tomorrow + k * (7 / s.posts_per_week)) := by
  rw [schedule_posts]
  split_ifs with h hg
  · rfl
  · dsimp only
    rw [scheduleLoop_dates, scheduleLoop_length]
  · dsimp only
    rw [scheduleLoop_dates, scheduleLoop_length]

/-! ### Claim C10: the preview is a dry run of the committing scheduler -/

theorem previewLoop_eq_scheduleLoop (s : Settings) :
    ∀ (l : List Post) (d ti : Nat),
      (previewLoop s l d ti).map (fun e => (e.id, e.scheduled_date, e.scheduled_time))
        = (scheduleLoop s l d ti).map (fun a => (a.id, a.date, a.time)) := by
  intro l
  induction l with
  | nil => intro d ti; rfl
  | cons p rest ih =>
    intro d ti
    rw [previewLoop, scheduleLoop]
    simp only [roundToWholeDay, ite_self, List.map_cons]
    rw [ih]

/-- C10: with identical storage contents, identical settings and the same
current time, `preview_schedule` returns exactly the `(id, date, time)`
assignments `schedule_posts` commits (the committing run additionally
moves files and stamps `scheduled_at`, neither of which feeds back into
the assignment computation). -/
theorem preview_is_dry_run (s : Settings) (approved : List Post) (store : List StoredPost)
    (grid_state : Option String × Nat) (tomorrow : Nat) :
    (preview_schedule s approved store grid_state tomorrow).map
        (fun e => (e.id, e.scheduled_date, e.scheduled_time))
      = (schedule_posts s approved store grid_state tomorrow).map
          (fun a => (a.id, a.date, a.time)) := by
  rw [preview_schedule, schedule_posts]
  split_ifs with h hg
  · rfl
  · dsimp only
    exact previewLoop_eq_scheduleLoop s _ _ _
  · dsimp only
    exact previewLoop_eq_scheduleLoop s _ _ _

/-! ### Claim C5 (amended): slot uniqueness within one batch -/

theorem scheduleLoop_date_mono (s : Settings) :
    ∀ (l : List Post) (d ti : Nat) (a : Assignment), a ∈ scheduleLoop s l d ti → d ≤ a.date := by
  intro l
  induction l with
  | nil => intro d ti a ha; simp [scheduleLoop] at ha
  | cons p rest ih =>
    intro d ti a ha
    rw [scheduleLoop] at ha
    simp only [roundToWholeDay, ite_self, List.mem_cons] at ha
    cases ha with
    | inl h => simp [h]
    | inr h =>
      exact Nat.le_trans (Nat.le_add_right d _) (ih (d + 7 / s.posts_per_week) (ti + 1) a h)

theorem scheduleLoop_pairwise_lt (s : Settings) (hadv : 1 ≤ 7 / s.posts_per_week) :
    ∀ (l : List Post) (d ti : Nat),
      (scheduleLoop s l d ti).Pairwise (fun a b => a.date < b.date) := by
  intro l
  induction l with
  | nil => intro d ti; simp [scheduleLoop]
  | cons p rest ih =>
    intro d ti
    rw [scheduleLoop]
    simp only [roundToWholeDay, ite_self]
    refine List.Pairwise.cons ?_ (ih _ _)
    intro b hb
    have hd := scheduleLoop_date_mono s rest (d + 7 / s.posts_per_week) (ti + 1) b hb
    show d < b.date
    omega

/-- C5 amended: within one run of the cadence-driven Date Assigner with
`1 ≤ posts_per_week ≤ 7`, no two items of the batch are assigned the same
`(suggested_date, suggested_time)` pair (the dates strictly increase).
Pairs can still collide with *already-scheduled* items, since only the
very first date is occupancy-checked (see the counterexample). -/
theorem batch_slots_pairwise_distinct (s : Settings) (approved : List Post)
    (store : List StoredPost) (grid_state : Option String × Nat) (tomorrow : Nat)
    (h1 : 0 < s.posts_per_week) (h2 : s.posts_per_week ≤ 7) :
    (schedule_posts s approved store grid_state tomorrow).Pairwise
      (fun a b => (a.date, a.time) ≠ (b.date, b.time)) := by
  have hadv : 1 ≤ 7 / s.posts_per_week := (Nat.one_le_div_iff h1).mpr h2
  rw [schedule_posts]
  split_ifs with h hg
  · exact List.Pairwise.nil
  · dsimp only
    refine List.Pairwise.imp ?_ (scheduleLoop_pairwise_lt s hadv _ _ _)
    intro a b hab heq
    rw [Prod.mk.injEq] at heq
    exact absurd heq.1 (Nat.ne_of_lt hab)
  · dsimp only
    refine List.Pairwise.imp ?_ (scheduleLoop_pairwise_lt s hadv _ _ _)
    intro a b hab heq
    rw [Prod.mk.injEq] at heq
    exact absurd heq.1 (Nat.ne_of_lt hab)

/-- Witness for `batch_slots_pairwise_distinct` at a concrete input. -/
theorem batch_slots_pairwise_distinct_witness :
    (schedule_posts ⟨3, ["07:00", "12:00"], 3, false⟩ [⟨1, "FR"⟩, ⟨2, "IT"⟩]
        [⟨some 2, "12:00", "ES"⟩] (none, 0) 0).Pairwise
      (fun a b => (a.date, a.time) ≠ (b.date, b.time)) :=
  batch_slots_pairwise_distinct ⟨3, ["07:00", "12:00"], 3, false⟩ [⟨1, "FR"⟩, ⟨2, "IT"⟩]
    [⟨some 2, "12:00", "ES"⟩] (none, 0) 0 (by decide) (by decide)

/-! ### Claim C6: the first assigned date -/

theorem exists_free_in_range (occ : List Nat) (d : Nat) :
    ∃ j, j < occ.length + 1 ∧ occ.count (d + j) = 0 := by
  by_contra hc
  push_neg at hc
  have hmem : ∀ j, j < occ.length + 1 → (d + j) ∈ occ := by
    intro j hj
    exact List.count_pos_iff.mp (Nat.pos_of_ne_zero (hc j hj))
  have hsub : (Finset.range (occ.length + 1)).image (fun j => d + j) ⊆ occ.toFinset := by
    intro x hx
    simp only [Finset.mem_image, Finset.mem_range] at hx
    obtain ⟨j, hj, rfl⟩ := hx
    exact List.mem_toFinset.mpr (hmem j hj)
  have h1 := Finset.card_le_card hsub
  rw [Finset.card_image_of_injective _ (fun a b hab => Nat.add_left_cancel hab :
    Function.Injective (fun j => d + j)), Finset.card_range] at h1
  have h2 := occ.toFinset_card_le
  omega

theorem nextFreeAux_spec (occ : List Nat) :
    ∀ (fuel d : Nat), (∃ j, j < fuel ∧ occ.count (d + j) = 0) →
      occ.count (nextFreeAux occ fuel d) = 0 ∧ d ≤ nextFreeAux occ fuel d ∧
        ∀ e, d ≤ e → e < nextFreeAux occ fuel d → 1 ≤ occ.count e := by
  intro fuel
  induction fuel with
  | zero =>
    intro d h
    obtain ⟨j, hj, _⟩ := h
    omega
  | succ n ih =>
    intro d h
    rw [nextFreeAux]
    split_ifs with hocc
    · obtain ⟨j, hj, hcount⟩ := h
      have hj0 : j ≠ 0 := by
        intro h0
        subst h0
        rw [Nat.add_zero] at hcount
        omega
      have hrec := ih (d + 1) ⟨j - 1, by omega, by
        have heq : d + 1 + (j - 1) = d + j := by omega
        rw [heq]; exact hcount⟩
      refine ⟨hrec.1, by omega, ?_⟩
      intro e he1 he2
      by_cases he : e = d
      · subst he; exact hocc
      · exact hrec.2.2 e (by omega) he2
    · exact ⟨by omega, Nat.le_refl d, fun e he1 he2 => absurd he2 (by omega)⟩

theorem nextFreeDate_spec (occ : List Nat) (tomorrow : Nat) :
    occ.count (nextFreeDate occ tomorrow) = 0 ∧ tomorrow ≤ nextFreeDate occ tomorrow ∧
      ∀ d, tomorrow ≤ d → d < nextFreeDate occ tomorrow → 1 ≤ occ.count d :=
  nextFreeAux_spec occ (occ.length + 1) tomorrow (exists_free_in_range occ tomorrow)

/-! ### Permutation lemmas for the Grid Scheduler -/

theorem flatten_perm_of_perm {l1 l2 : List (List Post)} (h : l1.Perm l2) :
    l1.flatten.Perm l2.flatten := by
  induction h with
  | nil => exact List.Perm.refl _
  | cons x _ ih => simpa using ih.append_left x
  | swap x y l => simpa using List.perm_append_comm_assoc y x l.flatten
  | trans _ _ ih1 ih2 => exact ih1.trans ih2

theorem addToGroups_flatten_perm (gs : List (String × List Post)) (p : Post) :
    ((addToGroups gs p).map Prod.snd).flatten.Perm ((gs.map Prod.snd).flatten ++ [p]) := by
  induction gs with
  | nil => simp [addToGroups]
  | cons g rest ih =>
    obtain ⟨c, ps⟩ := g
    rw [addToGroups]
    by_cases hc : c = p.country
    · rw [if_pos hc]
      simp only [List.map_cons, List.flatten_cons]
      have h1 : (ps ++ [p]) ++ (rest.map Prod.snd).flatten
          = ps ++ ([p] ++ (rest.map Prod.snd).flatten) := by simp
      have h2 : (ps ++ (rest.map Prod.snd).flatten) ++ [p]
          = ps ++ ((rest.map Prod.snd).flatten ++ [p]) := by simp
      rw [h1, h2]
      exact List.Perm.append_left ps List.perm_append_comm
    · rw [if_neg hc]
      simp only [List.map_cons, List.flatten_cons]
      have h2 : (ps ++ (rest.map Prod.snd).flatten) ++ [p]
          = ps ++ ((rest.map Prod.snd).flatten ++ [p]) := by simp
      rw [h2]
      exact List.Perm.append_left ps ih

theorem foldl_addToGroups_flatten (l : List Post) :
    ∀ gs, ((l.foldl addToGroups gs).map Prod.snd).flatten.Perm
      ((gs.map Prod.snd).flatten ++ l) := by
  induction l with
  | nil => intro gs; simp
  | cons p t ih =>
    intro gs
    rw [List.foldl_cons]
    refine (ih (addToGroups gs p)).trans ?_
    refine ((addToGroups_flatten_perm gs p).append_right t).trans ?_
    have h3 : ((gs.map Prod.snd).flatten ++ [p]) ++ t
        = (gs.map Prod.snd).flatten ++ (p :: t) := by simp
    rw [h3]

theorem byCountry_flatten_perm (posts : List Post) :
    ((byCountry posts).map Prod.snd).flatten.Perm posts := by
  simpa using foldl_addToGroups_flatten posts []

theorem addToGroups_keys (gs : List (String × List Post)) (p : Post) :
    (p.country ∈ gs.map Prod.fst ∧ (addToGroups gs p).map Prod.fst = gs.map Prod.fst) ∨
    (p.country ∉ gs.map Prod.fst ∧
      (addToGroups gs p).map Prod.fst = gs.map Prod.fst ++ [p.country]) := by
  induction gs with
  | nil => right; simp [addToGroups]
  | cons g rest ih =>
    obtain ⟨c, ps⟩ := g
    rw [addToGroups]
    by_cases hc : c = p.country
    · left
      subst hc
      rw [if_pos rfl]
      simp
    · rw [if_neg hc]
      cases ih with
      | inl h =>
        left
        refine ⟨List.mem_cons_of_mem _ h.1, ?_⟩
        simp only [List.map_cons, h.2]
      | inr h =>
        right
        refine ⟨?_, by simp only [List.map_cons, h.2, List.cons_append]⟩
        intro hmem
        rcases List.mem_cons.mp hmem with h1 | h1
        · exact hc h1.symm
        · exact h.1 h1

theorem foldl_addToGroups_keys_nodup (l : List Post) :
    ∀ gs, (gs.map Prod.fst).Nodup → ((l.foldl addToGroups gs).map Prod.fst).Nodup := by
  induction l with
  | nil => intro gs h; simpa using h
  | cons p t ih =>
    intro gs h
    rw [List.foldl_cons]
    apply ih
    cases addToGroups_keys gs p with
    | inl hk => rw [hk.2]; exact h
    | inr hk =>
      rw [hk.2]
      refine h.append (List.nodup_singleton _) ?_
      intro a ha hb
      rw [List.mem_singleton] at hb
      subst hb
      exact hk.1 ha

theorem byCountry_keys_nodup (posts : List Post) : ((byCountry posts).map Prod.fst).Nodup :=
  foldl_addToGroups_keys_nodup posts [] (by simp)

theorem addToGroups_const (gs : List (String × List Post)) (p : Post) :
    (∀ g ∈ gs, ∀ q ∈ g.2, q.country = g.1) →
      ∀ g ∈ addToGroups gs p, ∀ q ∈ g.2, q.country = g.1 := by
  induction gs with
  | nil =>
    intro _ g hg q hq
    rw [addToGroups] at hg
    rw [List.mem_singleton] at hg
    subst hg
    rw [List.mem_singleton] at hq
    subst hq
    rfl
  | cons g0 rest ih =>
    obtain ⟨c, ps⟩ := g0
    intro h g hg q hq
    rw [addToGroups] at hg
    by_cases hc : c = p.country
    · rw [if_pos hc] at hg
      rcases List.mem_cons.mp hg with h1 | h1
      · subst h1
        rcases List.mem_append.mp hq with h2 | h2
        · exact h (c, ps) (List.mem_cons_self _ _) q h2
        · rw [List.mem_singleton] at h2
          subst h2
          exact hc.symm
      · exact h g (List.mem_cons_of_mem _ h1) q hq
    · rw [if_neg hc] at hg
      rcases List.mem_cons.mp hg with h1 | h1
      · subst h1
        exact h (c, ps) (List.mem_cons_self _ _) q hq
      · exact ih (fun g' hg' => h g' (List.mem_cons_of_mem _ hg')) g h1 q hq

theorem byCountry_const (posts : List Post) :
    ∀ g ∈ byCountry posts, ∀ q ∈ g.2, q.country = g.1 := by
  suffices h : ∀ gs, (∀ g ∈ gs, ∀ q ∈ g.2, q.country = g.1) →
      ∀ g ∈ posts.foldl addToGroups gs, ∀ q ∈ g.2, q.country = g.1 by
    exact h [] (by simp)
  induction posts with
  | nil => intro gs h; simpa using h
  | cons p t ih =>
    intro gs h
    rw [List.foldl_cons]
    exact ih _ (addToGroups_const gs p h)

theorem lookup_addToGroups (gs : List (String × List Post)) (p : Post) (c : String) :
    lookupGroup (addToGroups gs p) c
      = if p.country = c then lookupGroup gs c ++ [p] else lookupGroup gs c := by
  induction gs with
  | nil =>
    rw [addToGroups, lookupGroup, lookupGroup]
    split_ifs with h
    · rfl
    · rw [lookupGroup]
  | cons g0 rest ih =>
    obtain ⟨d, ps⟩ := g0
    rw [addToGroups]
    by_cases hd : d = p.country
    · rw [if_pos hd]
      subst hd
      rw [lookupGroup, lookupGroup]
      split_ifs with h1
      · rfl
      · rfl
    · rw [if_neg hd]
      rw [lookupGroup, lookupGroup]
      by_cases hdc : d = c
      · rw [if_pos hdc, if_pos hdc]
        rw [if_neg (fun h => hd (by rw [hdc, h]))]
      · rw [if_neg hdc, if_neg hdc]
        exact ih

theorem byCountry_lookup (posts : List Post) (c : String) :
    lookupGroup (byCountry posts) c = posts.filter (fun p => p.country == c) := by
  suffices h : ∀ gs, lookupGroup (posts.foldl addToGroups gs) c
      = lookupGroup gs c ++ posts.filter (fun p => p.country == c) by
    simpa [byCountry, lookupGroup] using h []
  induction posts with
  | nil => intro gs; simp
  | cons p t ih =>
    intro gs
    rw [List.foldl_cons, ih (addToGroups gs p), lookup_addToGroups]
    by_cases hc : p.country = c
    · rw [if_pos hc]
      rw [List.filter_cons_of_pos (by simpa using hc)]
      simp
    · rw [if_neg hc]
      rw [List.filter_cons_of_neg (by simpa using hc)]

theorem dropGroup_keys (gs : List (String × List Post)) (c : String) (n : Nat) :
    (dropGroup gs c n).map Prod.fst = gs.map Prod.fst := by
  induction gs with
  | nil => rfl
  | cons g rest ih =>
    rw [dropGroup] at ih ⊢
    rw [List.map_cons, List.map_cons, List.map_cons, ih]
    by_cases hg : g.1 = c
    · rw [if_pos hg]
    · rw [if_neg hg]

theorem dropGroup_not_mem (gs : List (String × List Post)) (c : String) (n : Nat)
    (h : c ∉ gs.map Prod.fst) : dropGroup gs c n = gs := by
  induction gs with
  | nil => rfl
  | cons g rest ih =>
    rw [List.map_cons] at h
    rw [dropGroup, List.map_cons]
    rw [if_neg (fun hg => h (by rw [hg]; exact List.mem_cons_self _ _))]
    have hrest : c ∉ rest.map Prod.fst := fun hm => h (List.mem_cons_of_mem _ hm)
    rw [dropGroup] at ih
    rw [ih hrest]

theorem take_dropGroup_perm (c : String) (n : Nat) :
    ∀ (gs : List (String × List Post)), (gs.map Prod.fst).Nodup →
      ((lookupGroup gs c).take n ++ ((dropGroup gs c n).map Prod.snd).flatten).Perm
        ((gs.map Prod.snd).flatten) := by
  intro gs
  induction gs with
  | nil => simp [lookupGroup, dropGroup]
  | cons g rest ih =>
    intro hnd
    obtain ⟨d, ps⟩ := g
    rw [List.map_cons, List.nodup_cons] at hnd
    rw [lookupGroup, dropGroup, List.map_cons]
    by_cases hd : d = c
    · rw [if_pos hd]
      rw [if_pos (show (d, ps).1 = c from hd)]
      have hdro : dropGroup rest c n = rest := by
        apply dropGroup_not_mem
        rw [← hd]
        exact hnd.1
      rw [dropGroup] at hdro
      rw [hdro]
      simp only [List.map_cons, List.flatten_cons]
      rw [← List.append_assoc, List.take_append_drop]
    · rw [if_neg hd]
      rw [if_neg (show ¬((d, ps).1 = c) from hd)]
      simp only [List.map_cons, List.flatten_cons]
      refine (List.perm_append_comm_assoc _ ps _).trans ?_
      exact List.Perm.append_left ps (ih hnd.2)

theorem rowCompletion_flatten_perm (gs : List (String × List Post)) (lc : Option String)
    (rem k : Nat) (hnd : (gs.map Prod.fst).Nodup) :
    ((rowCompletion gs lc rem k).1
        ++ (((rowCompletion gs lc rem k).2).map Prod.snd).flatten).Perm
      ((gs.map Prod.snd).flatten) := by
  cases lc with
  | none => simp [rowCompletion]
  | some c =>
    rw [rowCompletion]
    split_ifs with h1 h2
    · simp
    · exact take_dropGroup_perm c (k - rem) gs hnd
    · simp

theorem sortGroups_perm (gs : List (String × List Post)) : (sortGroups gs).Perm gs :=
  List.perm_insertionSort gridOrder gs

theorem sortGroups_sorted (gs : List (String × List Post)) :
    List.Sorted gridOrder (sortGroups gs) :=
  List.sorted_insertionSort gridOrder gs

theorem totalLen_cons (g : String × List Post) (rest : List (String × List Post)) :
    totalLen (g :: rest) = g.2.length + totalLen rest := by
  simp [totalLen]

theorem totalLen_drop_le (k : Nat) :
    ∀ (gs : List (String × List Post)),
      totalLen (gs.map (fun g => (g.1, g.2.drop k))) ≤ totalLen gs := by
  intro gs
  induction gs with
  | nil => simp [totalLen]
  | cons g rest ih =>
    rw [List.map_cons, totalLen_cons, totalLen_cons]
    dsimp only
    have h1 : (g.2.drop k).length ≤ g.2.length := by
      rw [List.length_drop]; omega
    omega

theorem totalLen_drop_lt (k : Nat) (hk : 1 ≤ k) :
    ∀ (gs : List (String × List Post)), gs.all (fun g => g.2.isEmpty) = false →
      totalLen (gs.map (fun g => (g.1, g.2.drop k))) < totalLen gs := by
  intro gs
  induction gs with
  | nil => intro h; simp at h
  | cons g rest ih =>
    intro h
    rw [List.map_cons, totalLen_cons, totalLen_cons]
    dsimp only
    by_cases hg : g.2.isEmpty
    · have hrest : rest.all (fun g => g.2.isEmpty) = false := by
        rw [List.all_cons, hg] at h
        simpa using h
      have h1 : (g.2.drop k).length ≤ g.2.length := by
        rw [List.length_drop]; omega
      have h2 := ih hrest
      omega
    · have h1 : (g.2.drop k).length < g.2.length := by
        rw [List.length_drop]
        have h3 : g.2.length ≠ 0 := by
          intro h0
          exact hg (List.isEmpty_iff_length_eq_zero.mpr h0)
        omega
      have h2 := totalLen_drop_le k rest
      omega

theorem flatten_of_all_empty :
    ∀ {gs : List (String × List Post)}, gs.all (fun g => g.2.isEmpty) = true →
      ((gs.map Prod.snd)).flatten = [] := by
  intro gs
  induction gs with
  | nil => intro _; rfl
  | cons g rest ih =>
    intro h
    rw [List.all_cons] at h
    rw [List.map_cons, List.flatten_cons]
    rw [List.isEmpty_iff.mp (Bool.and_elim_left h), ih (Bool.and_elim_right h)]
    rfl

theorem take_drop_flatten_perm (k : Nat) :
    ∀ (gs : List (String × List Post)),
      ((gs.map (fun g => g.2.take k)).flatten
          ++ ((gs.map (fun g => (g.1, g.2.drop k))).map Prod.snd).flatten).Perm
        ((gs.map Prod.snd).flatten) := by
  intro gs
  induction gs with
  | nil => simp
  | cons g rest ih =>
    simp only [List.map_cons, List.flatten_cons]
    have h1 : (g.2.take k ++ (rest.map (fun g => g.2.take k)).flatten)
        ++ (g.2.drop k ++ ((rest.map (fun g => (g.1, g.2.drop k))).map Prod.snd).flatten)
        = g.2.take k ++ ((rest.map (fun g => g.2.take k)).flatten
          ++ (g.2.drop k ++ ((rest.map (fun g => (g.1, g.2.drop k))).map Prod.snd).flatten)) := by
      simp
    rw [h1]
    refine (List.Perm.append_left _ (List.perm_append_comm_assoc _ _ _)).trans ?_
    rw [← List.append_assoc, List.take_append_drop]
    exact List.Perm.append_left _ ih

theorem bulkFill_some_perm (k : Nat) (hk : 1 ≤ k) :
    ∀ (fuel : Nat) (gs : List (String × List Post)), totalLen gs < fuel →
      ∃ b, bulkFill k fuel gs = some b ∧ b.Perm ((gs.map Prod.snd).flatten) := by
  intro fuel
  induction fuel with
  | zero => intro gs h; omega
  | succ n ih =>
    intro gs h
    rw [bulkFill]
    by_cases hall : gs.all (fun g => g.2.isEmpty) = true
    · rw [if_pos hall]
      exact ⟨[], rfl, by rw [flatten_of_all_empty hall]⟩
    · rw [if_neg hall]
      have hlt := totalLen_drop_lt k hk gs (Bool.eq_false_iff.mpr hall)
      obtain ⟨rest, hrest, hperm⟩ := ih (gs.map (fun g => (g.1, g.2.drop k))) (by omega)
      rw [hrest]
      refine ⟨_, rfl, ?_⟩
      exact (List.Perm.append_left _ hperm).trans (take_drop_flatten_perm k gs)

theorem bulkFill_one_round (k : Nat) (gs : List (String × List Post))
    (hsmall : ∀ g ∈ gs, g.2.length ≤ k) :
    bulkFill k (totalLen gs + 1) gs = some ((gs.map Prod.snd).flatten) := by
  rw [bulkFill]
  by_cases hall : gs.all (fun g => g.2.isEmpty) = true
  · rw [if_pos hall, flatten_of_all_empty hall]
  · rw [if_neg hall]
    have hdropped : (gs.map (fun g => (g.1, g.2.drop k))).all (fun g => g.2.isEmpty) = true := by
      rw [List.all_eq_true]
      intro g hg
      obtain ⟨e, he, hfe⟩ := List.mem_map.mp hg
      subst hfe
      have := hsmall e he
      simp only [List.isEmpty_iff]
      rw [List.drop_eq_nil_iff]
      exact this
    have hrec : bulkFill k (totalLen gs) (gs.map (fun g => (g.1, g.2.drop k))) = some [] := by
      cases htl : totalLen gs with
      | zero => rw [bulkFill, if_pos hdropped]
      | succ m => rw [bulkFill, if_pos hdropped]
    rw [hrec]
    dsimp only
    rw [List.append_nil]
    congr 2
    apply List.map_congr_left
    intro g hg
    exact List.take_of_length_le (hsmall g hg)

/-! ### Claim C1 (amended): both schedulers are total permutations -/

theorem apply_grid_mode_some_perm (posts : List Post) (lc : Option String) (rem : Nat)
    (group_size : Nat) (hk : 0 < group_size) :
    ∃ out, apply_grid_mode posts lc rem group_size = some out ∧ out.Perm posts := by
  rw [apply_grid_mode]
  by_cases hp : posts = []
  · rw [if_pos hp]
    exact ⟨posts, rfl, List.Perm.refl _⟩
  · rw [if_neg hp]
    dsimp only
    obtain ⟨b, hb, hbperm⟩ := bulkFill_some_perm group_size hk
      (totalLen (sortGroups (rowCompletion (byCountry posts) lc rem group_size).2) + 1)
      (sortGroups (rowCompletion (byCountry posts) lc rem group_size).2) (by omega)
    rw [hb]
    refine ⟨_, rfl, ?_⟩
    have h1 : ((sortGroups (rowCompletion (byCountry posts) lc rem group_size).2).map
        Prod.snd).flatten.Perm
          (((rowCompletion (byCountry posts) lc rem group_size).2).map Prod.snd).flatten :=
      flatten_perm_of_perm ((sortGroups_perm _).map Prod.snd)
    have h2 := rowCompletion_flatten_perm (byCountry posts) lc rem group_size
      (byCountry_keys_nodup posts)
    have h3 := byCountry_flatten_perm posts
    exact ((List.Perm.append_left _ (hbperm.trans h1)).trans h2).trans h3

/-- C1 amended: `_apply_diversity_rule` always terminates and returns a
permutation of its input, for every `max_consecutive`; `_apply_grid_mode`
does so for every *positive* `group_size` and every grid state. (With
`group_size ≤ 0` and a nonempty batch the grid round-robin never removes
a post and the Python loop does not terminate, see the counterexample.) -/
theorem schedulers_are_permutations (group_size : Nat) (hk : 0 < group_size) :
    (∀ (posts : List Post) (m : Int), (apply_diversity_rule posts m).Perm posts) ∧
    (∀ (posts : List Post) (lc : Option String) (rem : Nat),
      ∃ out, apply_grid_mode posts lc rem group_size = some out ∧ out.Perm posts) :=
  ⟨apply_diversity_rule_perm,
    fun posts lc rem => apply_grid_mode_some_perm posts lc rem group_size hk⟩

/-- Witness for `schedulers_are_permutations` at `group_size = 3` and a
concrete batch and grid state. -/
theorem schedulers_are_permutations_witness :
    ∃ out, apply_grid_mode [⟨1, "FR"⟩, ⟨2, "IT"⟩] (some "FR") 1 3 = some out ∧
      out.Perm [⟨1, "FR"⟩, ⟨2, "IT"⟩] :=
  (schedulers_are_permutations 3 (by decide)).2 [⟨1, "FR"⟩, ⟨2, "IT"⟩] (some "FR") 1

/-! ### Claim C6: the first date never collides with a scheduled item -/

/-- C6: for every storage state and nonempty approved batch, the first
committed assignment falls on `nextFreeDate`: the earliest date, starting
from tomorrow and advancing day by day, holding zero already-scheduled
items; in particular it is never an occupied date. -/
theorem first_assigned_date (s : Settings) (approved : List Post) (store : List StoredPost)
    (grid_state : Option String × Nat) (tomorrow : Nat) (h : approved ≠ []) :
    ((schedule_posts s approved store grid_state tomorrow).head?).map Assignment.date
        = some (nextFreeDate (occupiedDates store) tomorrow) ∧
    (occupiedDates store).count (nextFreeDate (occupiedDates store) tomorrow) = 0 ∧
    tomorrow ≤ nextFreeDate (occupiedDates store) tomorrow ∧
    ∀ d, tomorrow ≤ d → d < nextFreeDate (occupiedDates store) tomorrow →
      1 ≤ (occupiedDates store).count d := by
  obtain ⟨hfree, hge, hmin⟩ := nextFreeDate_spec (occupiedDates store) tomorrow
  refine ⟨?_, hfree, hge, hmin⟩
  rw [schedule_posts, if_neg h]
  dsimp only
  have hord : (if s.grid_mode then (apply_grid_mode approved grid_state.1 grid_state.2 3).getD []
      else apply_diversity_rule approved s.max_consecutive_same_country) ≠ [] := by
    split_ifs with hgm
    · obtain ⟨out, hout, hperm⟩ :=
        apply_grid_mode_some_perm approved grid_state.1 grid_state.2 3 (by decide)
      rw [hout, Option.getD_some]
      intro hnil
      rw [hnil] at hperm
      exact h (List.perm_nil.mp hperm.symm)
    · intro hnil
      have hp := apply_diversity_rule_perm approved s.max_consecutive_same_country
      rw [hnil] at hp
      exact h (List.perm_nil.mp hp.symm)
  obtain ⟨p, rest, hpr⟩ := List.exists_cons_of_ne_nil hord
  rw [hpr, scheduleLoop]
  rfl

/-! ### Run-length lemmas for the grid aesthetic bound -/

theorem runs_cons_head (c : String) (cs : List String) :
    ∃ n t, runs (c :: cs) = (c, n) :: t ∧ 1 ≤ n := by
  cases hr : runs cs with
  | nil => rw [runs, hr]; exact ⟨1, [], rfl, Nat.le_refl 1⟩
  | cons dn t =>
    obtain ⟨d, n⟩ := dn
    rw [runs, hr]
    dsimp only
    by_cases hc : c = d
    · rw [if_pos hc]
      exact ⟨n + 1, t, rfl, by omega⟩
    · rw [if_neg hc]
      exact ⟨1, (d, n) :: t, rfl, Nat.le_refl 1⟩

theorem runs_append_block (c : String) :
    ∀ (b rest : List String), b ≠ [] → (∀ x ∈ b, x = c) →
      (∀ y, rest.head? = some y → y ≠ c) →
      runs (b ++ rest) = (c, b.length) :: runs rest := by
  intro b
  induction b with
  | nil => intro rest hb _ _; exact absurd rfl hb
  | cons x b2 ih =>
    intro rest hb hconst hhead
    have hx : x = c := hconst x (List.mem_cons_self _ _)
    subst hx
    cases b2 with
    | nil =>
      rw [List.singleton_append]
      cases hrest : rest with
      | nil => simp [runs]
      | cons y t =>
        have hy : y ≠ x := hhead y (by rw [hrest]; rfl)
        obtain ⟨n, tl, hrt, _⟩ := runs_cons_head y t
        rw [runs, hrt]
        dsimp only
        rw [if_neg (fun hcy => hy hcy.symm)]
        rfl
    | cons z b3 =>
      have hrec := ih rest (by simp)
        (fun w hw => hconst w (List.mem_cons_of_mem _ hw)) hhead
      rw [List.cons_append, runs, hrec]
      dsimp only
      rw [if_pos rfl]
      simp [List.length_cons]

theorem runs_blocks (k : Nat) :
    ∀ (bs : List (String × List Post)), (bs.map Prod.fst).Nodup →
      (∀ g ∈ bs, ∀ q ∈ g.2, q.country = g.1) → (∀ g ∈ bs, g.2.length ≤ k) →
      ∀ r ∈ runs (((bs.map Prod.snd).flatten).map Post.country), r.2 ≤ k := by
  intro bs
  induction bs with
  | nil => intro _ _ _ r hr; simp [runs] at hr
  | cons g rest ih =>
    intro hnd hconst hlen r hr
    rw [List.map_cons, List.nodup_cons] at hnd
    have ihr := ih hnd.2 (fun g' hg' => hconst g' (List.mem_cons_of_mem _ hg'))
      (fun g' hg' => hlen g' (List.mem_cons_of_mem _ hg'))
    rw [List.map_cons, List.flatten_cons, List.map_append] at hr
    by_cases hg : g.2 = []
    · rw [hg] at hr
      simp only [List.map_nil, List.nil_append] at hr
      exact ihr r hr
    · have hblock : (g.2.map Post.country) ≠ [] := by simpa using hg
      have hbc : ∀ x ∈ g.2.map Post.country, x = g.1 := by
        intro x hx
        obtain ⟨q, hq, rfl⟩ := List.mem_map.mp hx
        exact hconst g (List.mem_cons_self _ _) q hq
      have hhead : ∀ y, (((rest.map Prod.snd).flatten).map Post.country).head? = some y →
          y ≠ g.1 := by
        intro y hy hyc
        have hymem : y ∈ ((rest.map Prod.snd).flatten).map Post.country := by
          cases hl : ((rest.map Prod.snd).flatten).map Post.country with
          | nil => rw [hl] at hy; exact Option.noConfusion hy
          | cons a tt =>
            rw [hl] at hy
            rw [List.head?_cons] at hy
            injection hy with hy2
            rw [← hy2]
            exact List.mem_cons_self a tt
        obtain ⟨q, hq, hqc⟩ := List.mem_map.mp hymem
        obtain ⟨l, hlmem, hql⟩ := List.mem_flatten.mp hq
        obtain ⟨e, he, hel⟩ := List.mem_map.mp hlmem
        have h1 : q.country = e.1 := hconst e (List.mem_cons_of_mem _ he) q (hel ▸ hql)
        apply hnd.1
        have heg : e.1 = g.1 := by rw [← h1, hqc, hyc]
        rw [← heg]
        exact List.mem_map_of_mem Prod.fst he
      rw [runs_append_block g.1 _ _ hblock hbc hhead] at hr
      rcases List.mem_cons.mp hr with h1 | h1
      · rw [h1]
        simpa using hlen g (List.mem_cons_self _ _)
      · exact ihr r h1

theorem runs_tail_const_append (k : Nat) (c : String) :
    ∀ (pre l : List String), (∀ x ∈ pre, x = c) → (∀ r ∈ runs l, r.2 ≤ k) →
      ∀ r ∈ (runs (pre ++ l)).tail, r.2 ≤ k := by
  intro pre
  induction pre with
  | nil => intro l _ hl r hr; exact hl r (List.mem_of_mem_tail hr)
  | cons x pre2 ih =>
    intro l hconst hl r hr
    have hx : x = c := hconst x (List.mem_cons_self _ _)
    rw [List.cons_append, runs] at hr
    cases hruns : runs (pre2 ++ l) with
    | nil =>
      rw [hruns] at hr
      simp at hr
    | cons dn t =>
      obtain ⟨d, n⟩ := dn
      rw [hruns] at hr
      dsimp only at hr
      have ht := ih l (fun w hw => hconst w (List.mem_cons_of_mem _ hw)) hl
      by_cases hxd : x = d
      · rw [if_pos hxd] at hr
        apply ht
        rw [hruns]
        exact hr
      · rw [if_neg hxd] at hr
        rw [List.tail_cons] at hr
        rcases List.mem_cons.mp hr with h1 | h1
        · subst h1
          cases pre2 with
          | nil =>
            rw [List.nil_append] at hruns
            exact hl (d, n) (by rw [hruns]; exact List.mem_cons_self _ _)
          | cons z pz =>
            obtain ⟨n2, t2, hrt, _⟩ := runs_cons_head z (pz ++ l)
            rw [List.cons_append, hrt] at hruns
            have hz : z = c := hconst z (List.mem_cons_of_mem _ (List.mem_cons_self _ _))
            injection hruns with h2 _
            injection h2 with h4 _
            exact absurd (by rw [hx, ← hz, h4]) hxd
        · apply ht
          rw [hruns, List.tail_cons]
          exact h1

/-! ### Row-completion structural facts -/

theorem lookup_const (c : String) :
    ∀ (gs : List (String × List Post)), (∀ g ∈ gs, ∀ q ∈ g.2, q.country = g.1) →
      ∀ q ∈ lookupGroup gs c, q.country = c := by
  intro gs
  induction gs with
  | nil => intro _ q hq; simp [lookupGroup] at hq
  | cons g rest ih =>
    intro hconst q hq
    obtain ⟨d, ps⟩ := g
    rw [lookupGroup] at hq
    by_cases hd : d = c
    · rw [if_pos hd] at hq
      rw [← hd]
      exact hconst (d, ps) (List.mem_cons_self _ _) q hq
    · rw [if_neg hd] at hq
      exact ih (fun g' hg' => hconst g' (List.mem_cons_of_mem _ hg')) q hq

theorem rowCompletion_snd_keys (gs : List (String × List Post)) (lc : Option String)
    (rem k : Nat) :
    ((rowCompletion gs lc rem k).2).map Prod.fst = gs.map Prod.fst := by
  cases lc with
  | none => simp [rowCompletion]
  | some c =>
    rw [rowCompletion]
    split_ifs
    · rfl
    · exact dropGroup_keys gs c (k - rem)
    · rfl

theorem rowCompletion_snd_const (gs : List (String × List Post)) (lc : Option String)
    (rem k : Nat) (h : ∀ g ∈ gs, ∀ q ∈ g.2, q.country = g.1) :
    ∀ g ∈ (rowCompletion gs lc rem k).2, ∀ q ∈ g.2, q.country = g.1 := by
  cases lc with
  | none => simpa [rowCompletion] using h
  | some c =>
    rw [rowCompletion]
    split_ifs
    · exact h
    · intro g hg q hq
      obtain ⟨e, he, hfe⟩ := List.mem_map.mp hg
      by_cases hc : e.1 = c
      · rw [if_pos hc] at hfe
        rw [← hfe] at hq ⊢
        exact h e he q (List.drop_subset _ _ hq)
      · rw [if_neg hc] at hfe
        rw [← hfe] at hq ⊢
        exact h e he q hq
    · exact h

theorem rowCompletion_snd_len (gs : List (String × List Post)) (lc : Option String)
    (rem k : Nat) (h : ∀ g ∈ gs, g.2.length ≤ k) :
    ∀ g ∈ (rowCompletion gs lc rem k).2, g.2.length ≤ k := by
  cases lc with
  | none => simpa [rowCompletion] using h
  | some c =>
    rw [rowCompletion]
    split_ifs
    · exact h
    · intro g hg
      obtain ⟨e, he, hfe⟩ := List.mem_map.mp hg
      by_cases hc : e.1 = c
      · rw [if_pos hc] at hfe
        rw [← hfe]
        have h1 : (e.2.drop (k - rem)).length ≤ e.2.length := by
          rw [List.length_drop]; omega
        exact Nat.le_trans h1 (h e he)
      · rw [if_neg hc] at hfe
        rw [← hfe]
        exact h e he
    · exact h

theorem rowCompletion_fst_const (gs : List (String × List Post)) (lc : Option String)
    (rem k : Nat) (hconst : ∀ g ∈ gs, ∀ q ∈ g.2, q.country = g.1) :
    ∃ c0, ∀ q ∈ (rowCompletion gs lc rem k).1, q.country = c0 := by
  cases lc with
  | none => exact ⟨"", by simp [rowCompletion]⟩
  | some c =>
    rw [rowCompletion]
    split_ifs
    · exact ⟨"", by simp⟩
    · exact ⟨c, fun q hq => lookup_const c gs hconst q (List.take_subset _ _ hq)⟩
    · exact ⟨"", by simp⟩

/-! ### Claim C3 (amended): grid runs are bounded -/

/-- C3 amended: when every country has at most `group_size` pending posts
(so the round-robin completes in a single round), every maximal
same-country run of the Grid Scheduler's output, except possibly the very
first (row-completion) run, has length at most `group_size`. Without that
proviso the claim fails: once all other groups are exhausted, consecutive
rounds emit adjacent chunks of the one remaining group (see the
counterexample with 7 FR + 1 IT). -/
theorem grid_runs_bounded (posts : List Post) (lc : Option String) (rem k : Nat)
    (out : List Post)
    (hsmall : ∀ g ∈ byCountry posts, g.2.length ≤ k)
    (hout : apply_grid_mode posts lc rem k = some out) :
    ∀ r ∈ (runs (out.map Post.country)).tail, r.2 ≤ k := by
  rw [apply_grid_mode] at hout
  by_cases hp : posts = []
  · rw [if_pos hp] at hout
    injection hout with h1
    rw [← h1, hp]
    intro r hr
    simp [runs] at hr
  · rw [if_neg hp] at hout
    dsimp only at hout
    have hnd2 : (((rowCompletion (byCountry posts) lc rem k).2).map Prod.fst).Nodup := by
      rw [rowCompletion_snd_keys]
      exact byCountry_keys_nodup posts
    have hconst2 := rowCompletion_snd_const (byCountry posts) lc rem k (byCountry_const posts)
    have hlen2 := rowCompletion_snd_len (byCountry posts) lc rem k hsmall
    have hperm := sortGroups_perm ((rowCompletion (byCountry posts) lc rem k).2)
    have hnds : ((sortGroups ((rowCompletion (byCountry posts) lc rem k).2)).map
        Prod.fst).Nodup := ((hperm.map Prod.fst).nodup_iff).mpr hnd2
    have hconsts : ∀ g ∈ sortGroups ((rowCompletion (byCountry posts) lc rem k).2),
        ∀ q ∈ g.2, q.country = g.1 :=
      fun g hg => hconst2 g (hperm.mem_iff.mp hg)
    have hlens : ∀ g ∈ sortGroups ((rowCompletion (byCountry posts) lc rem k).2),
        g.2.length ≤ k :=
      fun g hg => hlen2 g (hperm.mem_iff.mp hg)
    rw [bulkFill_one_round k _ hlens] at hout
    dsimp only at hout
    injection hout with h1
    rw [← h1, List.map_append]
    obtain ⟨c0, hc0⟩ :=
      rowCompletion_fst_const (byCountry posts) lc rem k (byCountry_const posts)
    refine runs_tail_const_append k c0 _ _ ?_ ?_
    · intro x hx
      obtain ⟨q, hq, rfl⟩ := List.mem_map.mp hx
      exact hc0 q hq
    · exact runs_blocks k _ hnds hconsts hlens

/-- Witness for `grid_runs_bounded` at a concrete batch. -/
theorem grid_runs_bounded_witness :
    (∀ g ∈ byCountry [⟨1, "FR"⟩, ⟨2, "FR"⟩, ⟨3, "IT"⟩], g.2.length ≤ 3) ∧
    ∀ r ∈ (runs (([⟨1, "FR"⟩, ⟨2, "FR"⟩, ⟨3, "IT"⟩] : List Post).map Post.country)).tail,
      r.2 ≤ 3 :=
  ⟨by decide, grid_runs_bounded [⟨1, "FR"⟩, ⟨2, "FR"⟩, ⟨3, "IT"⟩] none 0 3
    [⟨1, "FR"⟩, ⟨2, "FR"⟩, ⟨3, "IT"⟩] (by decide) (by decide)⟩

theorem lookup_mem (c : String) :
    ∀ gs : List (String × List Post), lookupGroup gs c ≠ [] → (c, lookupGroup gs c) ∈ gs := by
  intro gs
  induction gs with
  | nil => intro h; exact absurd rfl h
  | cons g rest ih =>
    intro h
    obtain ⟨d, ps⟩ := g
    rw [lookupGroup] at h ⊢
    by_cases hd : d = c
    · rw [if_pos hd]
      rw [← hd]
      exact List.mem_cons_self _ _
    · rw [if_neg hd] at h ⊢
      exact List.mem_cons_of_mem _ (ih h)

theorem entry_snd_eq_lookup :
    ∀ gs : List (String × List Post), (gs.map Prod.fst).Nodup →
      ∀ g ∈ gs, g.2 = lookupGroup gs g.1 := by
  intro gs
  induction gs with
  | nil => intro _ g hg; simp at hg
  | cons g0 rest ih =>
    intro hnd g hg
    obtain ⟨d, ps⟩ := g0
    rw [List.map_cons, List.nodup_cons] at hnd
    rcases List.mem_cons.mp hg with h1 | h1
    · rw [h1, lookupGroup]
      rw [if_pos rfl]
    · rw [lookupGroup]
      by_cases hd : d = g.1
      · exfalso
        apply hnd.1
        rw [hd]
        exact List.mem_map.mpr ⟨g, h1, rfl⟩
      · rw [if_neg hd]
        exact ih hnd.2 g h1

/-! ### Claim C4 (amended): row completion with a single pending item -/

/-- C4 amended: with history state (A, 2) and `group_size = 3`, when the
pending batch holds *exactly one* post of group A (and at least one post
of another group), the output starts with that single A post immediately
followed by a post of a different group. (With more than one pending A
post the claim as stated fails: the bulk fill can put further A posts
right after the pulled one, see the counterexample.) -/
theorem grid_row_completion (posts : List Post) (A : String) (out : List Post)
    (hA : A ≠ "")
    (hone : (posts.filter (fun p => p.country == A)).length = 1)
    (hother : ∃ p ∈ posts, p.country ≠ A)
    (hout : apply_grid_mode posts (some A) 2 3 = some out) :
    ∃ a b rest2, out = a :: b :: rest2 ∧ a.country = A ∧ b.country ≠ A := by
  obtain ⟨p0, hp0mem, hp0ne⟩ := hother
  have hpne : posts ≠ [] := by
    intro h
    rw [h] at hp0mem
    exact (List.not_mem_nil p0) hp0mem
  obtain ⟨a, hfa⟩ := List.length_eq_one.mp hone
  have haA : a.country = A := by
    have ha : a ∈ posts.filter (fun p => p.country == A) := by
      rw [hfa]; exact List.mem_cons_self _ _
    simpa using (List.mem_filter.mp ha).2
  have hlookup : lookupGroup (byCountry posts) A = [a] := by
    rw [byCountry_lookup]; exact hfa
  have hrc : rowCompletion (byCountry posts) (some A) 2 3
      = ([a], dropGroup (byCountry posts) A 1) := by
    rw [rowCompletion, if_pos (⟨hA, by omega⟩ : A ≠ "" ∧ 0 < 2),
      if_neg (by rw [hlookup]; simp)]
    rw [hlookup]
    rfl
  have hnd := byCountry_keys_nodup posts
  have hconst := byCountry_const posts
  have hBfilter : p0 ∈ posts.filter (fun p => p.country == p0.country) := by
    rw [List.mem_filter]; exact ⟨hp0mem, by simp⟩
  have hBlookup : lookupGroup (byCountry posts) p0.country ≠ [] := by
    rw [byCountry_lookup]
    intro h
    rw [h] at hBfilter
    exact (List.not_mem_nil p0) hBfilter
  have hBmem : (p0.country, lookupGroup (byCountry posts) p0.country) ∈ byCountry posts :=
    lookup_mem p0.country (byCountry posts) hBlookup
  have hBmem2 : (p0.country, lookupGroup (byCountry posts) p0.country)
      ∈ dropGroup (byCountry posts) A 1 := by
    have hm := List.mem_map_of_mem
      (fun g : String × List Post => if g.1 = A then (g.1, g.2.drop 1) else g) hBmem
    rw [dropGroup]
    simpa [hp0ne] using hm
  have hAempty : ∀ g ∈ dropGroup (byCountry posts) A 1, g.1 = A → g.2 = [] := by
    intro g hg hgA
    rw [dropGroup] at hg
    obtain ⟨e, he, hfe⟩ := List.mem_map.mp hg
    by_cases hc : e.1 = A
    · rw [if_pos hc] at hfe
      have he2 : e.2 = lookupGroup (byCountry posts) e.1 := entry_snd_eq_lookup _ hnd e he
      rw [← hfe]
      dsimp only
      rw [he2, hc, hlookup]
      rfl
    · rw [if_neg hc] at hfe
      rw [← hfe] at hgA
      exact absurd hgA hc
  have hperm := sortGroups_perm (dropGroup (byCountry posts) A 1)
  have hsortmem : (p0.country, lookupGroup (byCountry posts) p0.country)
      ∈ sortGroups (dropGroup (byCountry posts) A 1) := hperm.mem_iff.mpr hBmem2
  have hsne : sortGroups (dropGroup (byCountry posts) A 1) ≠ [] := by
    intro h
    rw [h] at hsortmem
    exact (List.not_mem_nil _) hsortmem
  obtain ⟨g0, srest, hg0⟩ := List.exists_cons_of_ne_nil hsne
  have hsorted := sortGroups_sorted (dropGroup (byCountry posts) A 1)
  rw [hg0] at hsorted hsortmem
  have hB1 : 1 ≤ (lookupGroup (byCountry posts) p0.country).length := by
    rcases List.exists_cons_of_ne_nil hBlookup with ⟨x, xs, hxx⟩
    rw [hxx]; simp
  have hg0len : 1 ≤ g0.2.length := by
    rcases List.mem_cons.mp hsortmem with h1 | h1
    · rw [← h1]
      exact hB1
    · exact Nat.le_trans hB1 (List.rel_of_sorted_cons hsorted _ h1)
  have hg0ne : g0.2 ≠ [] := by
    intro h
    rw [h] at hg0len
    simp at hg0len
  have hg0mem : g0 ∈ dropGroup (byCountry posts) A 1 := by
    apply hperm.mem_iff.mp
    rw [hg0]
    exact List.mem_cons_self _ _
  have hg0A : g0.1 ≠ A := fun h => hg0ne (hAempty g0 hg0mem h)
  obtain ⟨q0, qrest, hq0⟩ := List.exists_cons_of_ne_nil hg0ne
  have hq0c : q0.country = g0.1 := by
    have hcs := rowCompletion_snd_const (byCountry posts) (some A) 2 3 hconst
    rw [hrc] at hcs
    exact hcs g0 hg0mem q0 (by rw [hq0]; exact List.mem_cons_self _ _)
  rw [apply_grid_mode, if_neg hpne] at hout
  dsimp only at hout
  rw [hrc] at hout
  dsimp only at hout
  rw [bulkFill] at hout
  have hallne : ((sortGroups (dropGroup (byCountry posts) A 1)).all
      (fun g => g.2.isEmpty)) = false := by
    rw [Bool.eq_false_iff]
    intro hall
    rw [List.all_eq_true] at hall
    have hge := hall g0 (by rw [hg0]; exact List.mem_cons_self _ _)
    rw [List.isEmpty_iff] at hge
    exact hg0ne hge
  rw [if_neg (by simp [hallne])] at hout
  obtain ⟨rest', hrest', _⟩ := bulkFill_some_perm 3 (by omega)
    (totalLen (sortGroups (dropGroup (byCountry posts) A 1)))
    ((sortGroups (dropGroup (byCountry posts) A 1)).map (fun g => (g.1, g.2.drop 3)))
    (totalLen_drop_lt 3 (by omega) _ hallne)
  rw [hrest'] at hout
  dsimp only at hout
  injection hout with h1
  refine ⟨a, q0, qrest.take 2 ++ (((srest.map (fun g => g.2.take 3)).flatten) ++ rest'),
    ?_, haA, ?_⟩
  · rw [← h1, hg0]
    simp only [List.map_cons, List.flatten_cons, hq0]
    simp [List.append_assoc]
  · rw [hq0c]
    exact hg0A

/-- Witness for `grid_row_completion` at a concrete batch. -/
theorem grid_row_completion_witness :
    ("FR" ≠ "") ∧
    (([⟨1, "FR"⟩, ⟨2, "IT"⟩] : List Post).filter (fun p => p.country == "FR")).length = 1 ∧
    (∃ p ∈ ([⟨1, "FR"⟩, ⟨2, "IT"⟩] : List Post), p.country ≠ "FR") ∧
    ∃ a b rest2, ([⟨1, "FR"⟩, ⟨2, "IT"⟩] : List Post) = a :: b :: rest2 ∧
      a.country = "FR" ∧ b.country ≠ "FR" :=
  ⟨by decide, by decide, ⟨⟨2, "IT"⟩, by decide, by decide⟩,
    grid_row_completion [⟨1, "FR"⟩, ⟨2, "IT"⟩] "FR" [⟨1, "FR"⟩, ⟨2, "IT"⟩] (by decide)
      (by decide) ⟨⟨2, "IT"⟩, by decide, by decide⟩ (by decide)⟩

/-- Witness for `first_assigned_date` at a concrete input: one approved
post, the store already occupying day 0, so the first assignment falls on
day 1. -/
theorem first_assigned_date_witness :
    ([⟨1, "FR"⟩] : List Post) ≠ [] ∧
    (((schedule_posts ⟨3, ["07:00"], 3, false⟩ [⟨1, "FR"⟩] [⟨some 0, "07:00", "IT"⟩]
        (none, 0) 0).head?).map Assignment.date
        = some (nextFreeDate (occupiedDates [⟨some 0, "07:00", "IT"⟩]) 0) ∧
      (occupiedDates [⟨some 0, "07:00", "IT"⟩]).count
          (nextFreeDate (occupiedDates [⟨some 0, "07:00", "IT"⟩]) 0) = 0 ∧
      0 ≤ nextFreeDate (occupiedDates [⟨some 0, "07:00", "IT"⟩]) 0 ∧
      ∀ d, 0 ≤ d → d < nextFreeDate (occupiedDates [⟨some 0, "07:00", "IT"⟩]) 0 →
        1 ≤ (occupiedDates [⟨some 0, "07:00", "IT"⟩]).count d) :=
  ⟨by decide, first_assigned_date ⟨3, ["07:00"], 3, false⟩ [⟨1, "FR"⟩]
    [⟨some 0, "07:00", "IT"⟩] (none, 0) 0 (by decide)⟩
